import Mathlib

/-!
Verification of the text-summarization pipeline of this repository
(`summarizer/summarize.py` and `summarizer/export.py`).

Texts are modelled as `List Char`.  Python's floating-point token estimate
`word_count * 1.3` is modelled exactly: all token quantities are scaled by 10,
so a fragment with `w` words has estimated size `13 * w` and a budget of
`max_tokens` becomes `10 * max_tokens`; the comparison
`current_length + sentence_tokens > max_tokens` is `10 * m < clen + st` and
`int(max_tokens / 1.3)` is `(10 * m) / 13` (truncating division).
-/

namespace SummApp

/-- ASCII whitespace, as recognised by Python's `str.split()` / `str.strip()`
and by `\s` in the sentence-splitting regex. -/
def isPySpace (c : Char) : Bool :=
  c == ' ' || c == '\t' || c == '\n' || c == '\r' || c == '\x0b' || c == '\x0c'

/-- Sentence-ending punctuation of the regex `(?<=[.!?])\s+`. -/
def isSentEnd (c : Char) : Bool :=
  c == '.' || c == '!' || c == '?'

/-- Drop a leading run of whitespace. -/
def dropWs : List Char → List Char
  | [] => []
  | c :: cs => if isPySpace c then dropWs cs else c :: cs

/-- Python `str.strip()`: drop leading and trailing whitespace. -/
def pyStrip (t : List Char) : List Char :=
  (dropWs ((dropWs t).reverse)).reverse

/-- Worker for `pyWords`; `cur` holds the reversed current word. -/
def pyWordsAux (cur : List Char) : List Char → List (List Char)
  | [] => if cur.isEmpty then [] else [cur.reverse]
  | c :: cs =>
    if isPySpace c then
      if cur.isEmpty then pyWordsAux [] cs else cur.reverse :: pyWordsAux [] cs
    else
      pyWordsAux (c :: cur) cs

/-- Python `str.split()` with no argument: maximal runs of non-whitespace
characters; never produces empty strings. -/
def pyWords (t : List Char) : List (List Char) :=
  pyWordsAux [] t

/-- Python `' '.join(l)`. -/
def joinSp : List (List Char) → List Char
  | [] => []
  | [s] => s
  | s :: t :: rest => s ++ ' ' :: joinSp (t :: rest)

/-- Whether the last character read so far (head of the reversed accumulator)
is sentence-ending punctuation: the lookbehind `(?<=[.!?])`. -/
def accEndsSent : List Char → Bool
  | [] => false
  | p :: _ => isSentEnd p

/-- Worker for `sentSplit`.  `skipping` is true while consuming the whitespace
run of a regex match; `acc` holds the reversed current sentence. -/
def sentAux (skipping : Bool) (acc : List Char) : List Char → List (List Char)
  | [] => [acc.reverse]
  | c :: cs =>
    if skipping then
      if isPySpace c then sentAux true acc cs
      else sentAux false [c] cs
    else if isPySpace c && accEndsSent acc then
      acc.reverse :: sentAux true [] cs
    else
      sentAux false (c :: acc) cs

/-- Python `re.split(r'(?<=[.!?])\s+', text)`: split at each maximal
whitespace run immediately preceded by `.`, `!` or `?`. -/
def sentSplit (t : List Char) : List (List Char) :=
  sentAux false [] t

/-- Worker for `groupsOf`, fuelled by the length of the list so that the
recursion is structural; with `fuel = l.length` and `k ≥ 1` the fuel never
runs out. -/
def groupsOfAux {α : Type} (k : Nat) : Nat → List α → List (List α)
  | _, [] => []
  | 0, x :: xs => [x :: xs]
  | fuel + 1, x :: xs =>
    (x :: xs.take (k - 1)) :: groupsOfAux k fuel (xs.drop (k - 1))

/-- The word groups produced by
`for i in range(0, len(words), chunk_size): words[i:i+chunk_size]`
(for `chunk_size = k ≥ 1`; the caller treats `k = 0` as Python's
`ValueError` from a zero `range` step). -/
def groupsOf {α : Type} (k : Nat) (l : List α) : List (List α) :=
  groupsOfAux k l.length l

/-- The sentence loop of `chunk_text`.  State: the remaining sentences, the
`chunks` accumulated so far, the sentences of `current_chunk`, and
`current_length` scaled by 10 (`clen = 10 × current_length` exactly, since
every sentence contributes `13 × word_count`).  `none` models the
`ValueError` Python raises from `range(0, len(words), 0)` when
`int(max_tokens / 1.3) = 0`. -/
def chunkLoop (m : Nat) :
    List (List Char) → List (List Char) → List (List Char) → Nat →
      Option (List (List Char))
  | [], chunks, current, _ =>
    some (if current.isEmpty then chunks else chunks ++ [joinSp current])
  | s :: rest, chunks, current, clen =>
    let st := 13 * (pyWords s).length
    if 10 * m < clen + st then
      if current.isEmpty then
        let k := (10 * m) / 13
        if k = 0 then none
        else
          chunkLoop m rest (chunks ++ (groupsOf k (pyWords s)).map joinSp)
            current clen
      else
        chunkLoop m rest (chunks ++ [joinSp current]) [s] st
    else
      chunkLoop m rest chunks (current ++ [s]) (clen + st)

/-- `chunk_text(text, max_tokens)` of `summarizer/summarize.py`:
split into sentences, then greedily pack sentences into chunks of estimated
size at most `max_tokens`, hard-splitting an oversized sentence that arrives
while the current chunk is empty.  `none` models the `ValueError` raised when
the hard-split is reached with `int(max_tokens / 1.3) = 0`. -/
def chunk_text (text : List Char) (max_tokens : Nat) :
    Option (List (List Char)) :=
  chunkLoop max_tokens (sentSplit text) [] [] 0

/-- Observable calls the pipeline makes: an invocation of the Chunker, or a
call of the cached summarization model on some input with generation bounds
`max_length` and `min_length`. -/
inductive Event : Type where
  | chunk : List Char → Nat → Event
  | model : List Char → Nat → Nat → Event
deriving DecidableEq, Repr

/-- A model call: given an input text and the `max_length` / `min_length`
generation bounds, either a summary or a raised exception message. -/
abbrev ModelCall : Type := List Char → Nat → Nat → Except (List Char) (List Char)

/-- `merge_summaries(summary_chunks, max_length, min_length)` of
`summarizer/summarize.py`, with the second-pass call through the cached
pipeline abstracted as `call`.  Returns the merged summary together with the
list of model calls performed (the function itself never raises: the one
risky call sits inside `try`/`except`). -/
def merge_summaries (call : ModelCall) (summary_chunks : List (List Char))
    (max_length min_length : Nat) : List Char × List Event :=
  match summary_chunks with
  | [] => ([], [])
  | [s] => (s, [])
  | s :: t :: rest =>
    let combined := joinSp (s :: t :: rest)
    if (pyWords combined).length ≤ max_length then (combined, [])
    else
      match call combined max_length min_length with
      | .ok final => (final, [.model combined max_length min_length])
      | .error _ =>
        (joinSp ((pyWords combined).take max_length),
          [.model combined max_length min_length])

/-- `_extractive_fallback(text, num_sentences)`: the first `num_sentences`
sentences of `text`, joined by single spaces. -/
def extractive_fallback (text : List Char) (num_sentences : Nat) : List Char :=
  joinSp ((sentSplit text).take num_sentences)

/-- The `for i, chunk in enumerate(chunks)` loop of the chunked path of
`summarize`: call the model on each chunk in order, stopping at the first
raised exception; also records the calls performed. -/
def summarizeChunks (call : ModelCall) (max_length min_length : Nat) :
    List (List Char) → Except (List Char) (List (List Char)) × List Event
  | [] => (.ok [], [])
  | c :: cs =>
    match call c max_length min_length with
    | .error e => (.error e, [.model c max_length min_length])
    | .ok s =>
      match summarizeChunks call max_length min_length cs with
      | (.ok ss, evs) => (.ok (s :: ss), .model c max_length min_length :: evs)
      | (.error e, evs) => (.error e, .model c max_length min_length :: evs)

/-- Top-level `summarize(text, max_length, min_length)` of
`summarizer/summarize.py`.  The transformers pipeline is abstract: `M` is the
type of model handles, `load` the result of `pipeline("summarization", ...)`
(`Except.error` = the load raised), `call mdl` a call of the loaded pipeline,
and `cached` the module-level `_cached_pipeline` (`none` = not yet loaded).
Returns the new cache state, the `(summary_text, error_message)` pair, and
the list of Chunker/model calls performed.  Any exception from the `try`
block falls into the `except` handler, which runs `_extractive_fallback`
(itself exception-free, so the inner handler returning `("", error)` is
reached only from the validation return). -/
def summarize {M : Type} (load : Except (List Char) M)
    (call : M → ModelCall) (cached : Option M) (text : List Char)
    (max_length min_length : Nat) :
    Option M × (List Char × Option (List Char)) × List Event :=
  if (pyStrip text).isEmpty then
    (cached, ([], some "Input text is empty".data), [])
  else
    match (match cached with | some mdl => .ok mdl | none => load : Except (List Char) M) with
    | .error _ =>
      (cached, (extractive_fallback text 3, none), [])
    | .ok mdl =>
      let max_tokens := 1024
      if 10 * max_tokens < 13 * (pyWords text).length then
        match chunk_text text max_tokens with
        | none =>
          (some mdl, (extractive_fallback text 3, none), [.chunk text max_tokens])
        | some chunks =>
          match summarizeChunks (call mdl) max_length min_length chunks with
          | (.error _, evs) =>
            (some mdl, (extractive_fallback text 3, none),
              .chunk text max_tokens :: evs)
          | (.ok summaries, evs) =>
            let merged := merge_summaries (call mdl) summaries max_length min_length
            (some mdl, (merged.1, none), .chunk text max_tokens :: evs ++ merged.2)
      else
        match call mdl text max_length min_length with
        | .ok summary =>
          (some mdl, (summary, none), [.model text max_length min_length])
        | .error _ =>
          (some mdl, (extractive_fallback text 3, none),
            [.model text max_length min_length])

/-- `validate_export_inputs(transcript, summary)` of `summarizer/export.py`. -/
def validate_export_inputs (transcript summary : List Char) :
    Option (List Char) :=
  if (pyStrip transcript).isEmpty then
    some "Transcript is empty. Cannot export.".data
  else if (pyStrip summary).isEmpty then
    some "Summary is empty. Cannot export.".data
  else
    none

/-! ### Concrete evaluation checks of the embedding -/

example : sentSplit "Hi. Bye!".data = ["Hi.".data, "Bye!".data] := by decide
example : sentSplit "Hi. ".data = ["Hi.".data, []] := by decide
example : sentSplit "".data = [[]] := by decide
example : pyWords "a  b ".data = ["a".data, "b".data] := by decide
example : pyStrip "  a ".data = "a".data := by rfl
example : groupsOf 2 [1, 2, 3, 4, 5] = [[1, 2], [3, 4], [5]] := by decide
example : chunk_text "Hello there. Bye.".data 1024 =
    some ["Hello there. Bye.".data] := by decide
example : chunk_text "".data 1024 = some [[]] := by decide
example : chunk_text "hello".data 1 = none := by decide
example : chunk_text "a a a a. b b b b.".data 7 =
    some ["a a a a.".data, "b b b b.".data] := by decide
example : chunk_text "x x x x x x. y.".data 5 =
    some ["x x x".data, "x x x.".data, "y.".data] := by decide
example : chunk_text "w w w. ".data 2 =
    some ["w".data, "w".data, "w.".data, []] := by decide
example : chunk_text "a. b b b b b.".data 5 =
    some ["a.".data, "b b b b b.".data] := by decide
example :
    (summarize (M := Unit) (.ok ()) (fun _ t _ _ => .ok t) none "Hi. Bye.".data
      150 50).2.1 = ("Hi. Bye.".data, none) := by decide
example :
    (summarize (M := Unit) (.ok ()) (fun _ _ _ _ => .error "boom".data) none
      "One. Two. Three. Four.".data 150 50).2.1 =
    ("One. Two. Three.".data, none) := by decide
example : validate_export_inputs "x".data "y".data = none := by decide

/-! ### Lemmas about `pyWords` -/

theorem isSentEnd_eq_false_of_isPySpace {c : Char} (h : isPySpace c = true) :
    isSentEnd c = false := by
  simp only [isPySpace, Bool.or_eq_true, beq_iff_eq] at h
  rcases h with ((((h | h) | h) | h) | h) | h <;> subst h <;> rfl

theorem pyWordsAux_append_space {c : Char} (hc : isPySpace c = true)
    (x : List Char) :
    ∀ cur y, pyWordsAux cur (x ++ c :: y) = pyWordsAux cur x ++ pyWords y := by
  induction x with
  | nil =>
    intro cur y
    cases cur <;> simp [pyWordsAux, hc, pyWords]
  | cons a as ih =>
    intro cur y
    by_cases ha : isPySpace a = true
    · cases cur <;> simp [pyWordsAux, ha, ih]
    · simp only [List.cons_append, pyWordsAux, ha, Bool.false_eq_true,
        if_false]
      exact ih (a :: cur) y

theorem pyWords_cons_space {c : Char} (hc : isPySpace c = true)
    (y : List Char) : pyWords (c :: y) = pyWords y := by
  simp [pyWords, pyWordsAux, hc]

theorem pyWords_append_space {c : Char} (hc : isPySpace c = true)
    (x y : List Char) : pyWords (x ++ c :: y) = pyWords x ++ pyWords y :=
  pyWordsAux_append_space hc x [] y

theorem pyWordsAux_all_space (t : List Char)
    (h : ∀ c ∈ t, isPySpace c = true) :
    ∀ cur, pyWordsAux cur t = if cur.isEmpty then [] else [cur.reverse] := by
  induction t with
  | nil => intro cur; rfl
  | cons a as ih =>
    intro cur
    have ha := h a (by simp)
    have h' : ∀ c ∈ as, isPySpace c = true := fun c hc => h c (by simp [hc])
    cases cur <;> simp [pyWordsAux, ha, ih h']

theorem pyWords_eq_nil_of_all_space (t : List Char)
    (h : ∀ c ∈ t, isPySpace c = true) : pyWords t = [] := by
  simp [pyWords, pyWordsAux_all_space t h]

theorem pyWordsAux_all_nonspace (t : List Char)
    (h : ∀ c ∈ t, isPySpace c = false) :
    ∀ cur, pyWordsAux cur t =
      if cur.isEmpty && t.isEmpty then [] else [cur.reverse ++ t] := by
  induction t with
  | nil => intro cur; cases cur <;> simp [pyWordsAux]
  | cons a as ih =>
    intro cur
    have ha := h a (by simp)
    have h' : ∀ c ∈ as, isPySpace c = false := fun c hc => h c (by simp [hc])
    simp [pyWordsAux, ha, ih h', List.append_assoc]

theorem pyWords_single (w : List Char) (h1 : w ≠ [])
    (h2 : ∀ c ∈ w, isPySpace c = false) : pyWords w = [w] := by
  have := pyWordsAux_all_nonspace w h2 []
  simpa [pyWords, h1] using this

theorem pyWordsAux_mem (t : List Char) :
    ∀ cur w, w ∈ pyWordsAux cur t → (∀ c ∈ cur, isPySpace c = false) →
      w ≠ [] ∧ ∀ c ∈ w, isPySpace c = false := by
  induction t with
  | nil =>
    intro cur w hw hcur
    cases cur with
    | nil => simp [pyWordsAux] at hw
    | cons b bs =>
      simp [pyWordsAux] at hw
      subst hw
      refine ⟨by simp, fun c hc => hcur c (by simp at hc ⊢; tauto)⟩
  | cons a as ih =>
    intro cur w hw hcur
    by_cases ha : isPySpace a = true
    · cases cur with
      | nil =>
        simp [pyWordsAux, ha] at hw
        exact ih [] w hw (by simp)
      | cons b bs =>
        simp [pyWordsAux, ha] at hw
        rcases hw with hw | hw
        · subst hw
          refine ⟨by simp, fun c hc => hcur c (by simp at hc ⊢; tauto)⟩
        · exact ih [] w hw (by simp)
    · simp only [pyWordsAux, ha, Bool.false_eq_true, if_false] at hw
      refine ih (a :: cur) w hw ?_
      intro c hc
      rcases List.mem_cons.mp hc with hc | hc
      · subst hc; exact Bool.eq_false_iff.mpr ha
      · exact hcur c hc

theorem pyWords_mem (t : List Char) (w : List Char) (hw : w ∈ pyWords t) :
    w ≠ [] ∧ ∀ c ∈ w, isPySpace c = false :=
  pyWordsAux_mem t [] w hw (by simp)

theorem pyWords_joinSp : ∀ l : List (List Char),
    pyWords (joinSp l) = (l.map pyWords).flatten
  | [] => by simp [joinSp, pyWords, pyWordsAux]
  | [s] => by simp [joinSp]
  | s :: t :: rest => by
    rw [show joinSp (s :: t :: rest) = s ++ ' ' :: joinSp (t :: rest) from rfl,
      pyWords_append_space (show isPySpace ' ' = true from rfl),
      pyWords_joinSp (t :: rest)]
    simp

theorem flatten_map_pyWords (l : List (List Char))
    (h : ∀ w ∈ l, w ≠ [] ∧ ∀ c ∈ w, isPySpace c = false) :
    (l.map pyWords).flatten = l := by
  induction l with
  | nil => rfl
  | cons w ws ih =>
    have hw := h w (by simp)
    simp [pyWords_single w hw.1 hw.2, ih (fun w' hw' => h w' (by simp [hw']))]

theorem pyWords_joinSp_words (g : List (List Char)) (t : List Char)
    (hg : ∀ w ∈ g, w ∈ pyWords t) : pyWords (joinSp g) = g := by
  rw [pyWords_joinSp]
  exact flatten_map_pyWords g (fun w hw => pyWords_mem t w (hg w hw))

/-! ### Lemmas about `sentSplit` -/

theorem sentAux_words (t : List Char) :
    ∀ sk acc, (sk = true → acc = []) →
      ((sentAux sk acc t).map pyWords).flatten = pyWords (acc.reverse ++ t) := by
  induction t with
  | nil => intro sk acc _; cases sk <;> simp [sentAux]
  | cons c cs ih =>
    intro sk acc hsk
    cases sk with
    | true =>
      rw [hsk rfl]
      by_cases hc : isPySpace c = true
      · rw [show sentAux true [] (c :: cs) = sentAux true [] cs from by
          simp [sentAux, hc]]
        rw [ih true [] (fun _ => rfl)]
        simp [pyWords_cons_space hc]
      · rw [show sentAux true [] (c :: cs) = sentAux false [c] cs from by
          simp [sentAux, hc]]
        rw [ih false [c] (by simp)]
        simp
    | false =>
      by_cases hsplit : (isPySpace c && accEndsSent acc) = true
      · have hc : isPySpace c = true := by
          have h' := hsplit; simp only [Bool.and_eq_true] at h'; exact h'.1
        rw [show sentAux false acc (c :: cs) =
            acc.reverse :: sentAux true [] cs from by simp [sentAux, hsplit]]
        rw [List.map_cons, List.flatten_cons, ih true [] (fun _ => rfl)]
        rw [pyWords_append_space hc]
        simp
      · rw [show sentAux false acc (c :: cs) = sentAux false (c :: acc) cs from
          by simp [sentAux, hsplit]]
        rw [ih false (c :: acc) (by simp)]
        simp

theorem sentSplit_words (t : List Char) :
    ((sentSplit t).map pyWords).flatten = pyWords t := by
  simpa using sentAux_words t false [] (by simp)

theorem sentAux_false_head (t : List Char) :
    ∀ acc, acc ≠ [] ∨ t ≠ [] →
      ∃ s rest, sentAux false acc t = s :: rest ∧ s ≠ [] := by
  induction t with
  | nil =>
    intro acc h
    have hacc : acc ≠ [] := h.resolve_right (fun h' => h' rfl)
    exact ⟨acc.reverse, [], by simp [sentAux], by simpa using hacc⟩
  | cons c cs ih =>
    intro acc _
    by_cases hsplit : (isPySpace c && accEndsSent acc) = true
    · have hacc : acc ≠ [] := by
        have : accEndsSent acc = true := by
          have h' := hsplit; simp only [Bool.and_eq_true] at h'; exact h'.2
        cases acc with
        | nil => simp [accEndsSent] at this
        | cons _ _ => simp
      exact ⟨acc.reverse, sentAux true [] cs, by simp [sentAux, hsplit],
        by simpa using hacc⟩
    · have h' := ih (c :: acc) (Or.inl (by simp))
      rw [show sentAux false acc (c :: cs) = sentAux false (c :: acc) cs from
        by simp [sentAux, hsplit]]
      exact h'

theorem sentSplit_head (t : List Char) (ht : t ≠ []) :
    ∃ s rest, sentSplit t = s :: rest ∧ s ≠ [] :=
  sentAux_false_head t [] (Or.inr ht)

theorem sentAux_all_space (t : List Char) (h : ∀ c ∈ t, isPySpace c = true) :
    ∀ acc, accEndsSent acc = false →
      sentAux false acc t = [acc.reverse ++ t] := by
  induction t with
  | nil => intro acc _; simp [sentAux]
  | cons c cs ih =>
    intro acc hacc
    have hc := h c (by simp)
    have hce : isSentEnd c = false := isSentEnd_eq_false_of_isPySpace hc
    have h' : ∀ c' ∈ cs, isPySpace c' = true := fun c' hc' => h c' (by simp [hc'])
    rw [show sentAux false acc (c :: cs) = sentAux false (c :: acc) cs from
      by simp [sentAux, hacc]]
    rw [ih h' (c :: acc) (by simp [accEndsSent, hce])]
    simp

theorem sentSplit_all_space (t : List Char) (h : ∀ c ∈ t, isPySpace c = true) :
    sentSplit t = [t] := by
  simpa using sentAux_all_space t h [] rfl

/-! ### Lemmas about `groupsOf` -/

theorem groupsOfAux_flatten {α : Type} (k : Nat) :
    ∀ fuel (l : List α), (groupsOfAux k fuel l).flatten = l := by
  intro fuel
  induction fuel with
  | zero => intro l; cases l <;> simp [groupsOfAux]
  | succ n ih =>
    intro l
    cases l with
    | nil => simp [groupsOfAux]
    | cons x xs => simp [groupsOfAux, ih]

theorem groupsOf_flatten {α : Type} (k : Nat) (l : List α) :
    (groupsOf k l).flatten = l :=
  groupsOfAux_flatten k l.length l

theorem groupsOf_mem_mem {α : Type} {k : Nat} {l : List α} {g : List α}
    (hg : g ∈ groupsOf k l) {x : α} (hx : x ∈ g) : x ∈ l := by
  rw [← groupsOf_flatten k l]
  exact List.mem_flatten.mpr ⟨g, hg, hx⟩

theorem groupsOfAux_length_le {α : Type} (k : Nat) (hk : 1 ≤ k) :
    ∀ fuel (l : List α), l.length ≤ fuel →
      ∀ g ∈ groupsOfAux k fuel l, g.length ≤ k := by
  intro fuel
  induction fuel with
  | zero =>
    intro l hl g hg
    cases l with
    | nil => simp [groupsOfAux] at hg
    | cons x xs => simp at hl
  | succ n ih =>
    intro l hl g hg
    cases l with
    | nil => simp [groupsOfAux] at hg
    | cons x xs =>
      simp only [groupsOfAux, List.mem_cons] at hg
      rcases hg with hg | hg
      · subst hg
        have : (xs.take (k - 1)).length ≤ k - 1 := by simp
        simp only [List.length_cons]
        omega
      · refine ih (xs.drop (k - 1)) ?_ g hg
        have : (xs.drop (k - 1)).length ≤ xs.length := by simp
        simp only [List.length_cons] at hl
        omega

theorem groupsOf_length_le {α : Type} {k : Nat} (hk : 1 ≤ k) {l : List α}
    {g : List α} (hg : g ∈ groupsOf k l) : g.length ≤ k :=
  groupsOfAux_length_le k hk l.length l (Nat.le_refl _) g hg

/-! ### Lemmas about `chunkLoop` and `chunk_text` -/

theorem chunkLoop_isSome (m : Nat) (hk : (10 * m) / 13 ≠ 0) :
    ∀ sents chunks current clen,
      ∃ r, chunkLoop m sents chunks current clen = some r := by
  intro sents
  induction sents with
  | nil => intro chunks current clen; exact ⟨_, rfl⟩
  | cons s rest ih =>
    intro chunks current clen
    simp only [chunkLoop]
    split
    · split
      · exact ih _ _ _
      · exact ih _ _ _
    · exact ih _ _ _

theorem chunkLoop_words (m : Nat) :
    ∀ sents chunks current clen r,
      chunkLoop m sents chunks current clen = some r →
      (r.map pyWords).flatten =
        (chunks.map pyWords).flatten ++ (current.map pyWords).flatten ++
          (sents.map pyWords).flatten := by
  intro sents
  induction sents with
  | nil =>
    intro chunks current clen r hr
    simp only [chunkLoop] at hr
    split at hr
    · rename_i hcur
      rw [List.isEmpty_iff.mp hcur] at *
      simpa using (Option.some_injective _ hr) ▸ rfl
    · cases hr
      simp [pyWords_joinSp]
  | cons s rest ih =>
    intro chunks current clen r hr
    simp only [chunkLoop] at hr
    split at hr
    · split at hr
      · rename_i hover hcur
        split at hr
        · cases hr
        · rename_i hk
          have hk1 : 1 ≤ (10 * m) / 13 := Nat.one_le_iff_ne_zero.mpr hk
          rw [ih _ _ _ _ hr]
          have hgrp : (((groupsOf ((10 * m) / 13) (pyWords s)).map joinSp).map
              pyWords).flatten = pyWords s := by
            rw [List.map_map]
            have : ((groupsOf ((10 * m) / 13) (pyWords s)).map
                (pyWords ∘ joinSp)) =
                (groupsOf ((10 * m) / 13) (pyWords s)).map id := by
              refine List.map_congr_left ?_
              intro g hg
              exact pyWords_joinSp_words g s (fun w hw => groupsOf_mem_mem hg hw)
            rw [this, List.map_id, groupsOf_flatten]
          rw [List.isEmpty_iff.mp hcur]
          simp only [List.map_append, List.flatten_append, hgrp, List.map_cons,
            List.flatten_cons, List.map_nil, List.flatten_nil, List.append_nil,
            List.nil_append, List.append_assoc]
      · rw [ih _ _ _ _ hr]
        simp [pyWords_joinSp, List.append_assoc]
    · rw [ih _ _ _ _ hr]
      simp [List.append_assoc]

/-- When the loop closes `current_chunk` into a chunk, the chunk either meets
the token budget or is a single oversized sentence. -/
theorem joinSp_chunk_ok (m : Nat) (S : List (List Char))
    (current : List (List Char)) (hS : ∀ s ∈ current, s ∈ S)
    (hdisj : 13 * ((current.map pyWords).flatten).length ≤ 10 * m ∨
      ∃ s, current = [s]) :
    13 * (pyWords (joinSp current)).length ≤ 10 * m ∨
      (joinSp current ∈ S ∧ 10 * m < 13 * (pyWords (joinSp current)).length) := by
  have hw : (pyWords (joinSp current)).length =
      ((current.map pyWords).flatten).length := by rw [pyWords_joinSp]
  rcases hdisj with h | ⟨s, rfl⟩
  · left; rw [hw]; exact h
  · rcases le_or_lt (13 * (pyWords (joinSp [s])).length) (10 * m) with h | h
    · left; exact h
    · right
      refine ⟨?_, h⟩
      show s ∈ S
      exact hS s (by simp)

/-- Size invariant of the chunking loop: every produced chunk meets the token
budget unless it is a single input sentence whose own estimate exceeds it. -/
theorem chunkLoop_bound (m : Nat) (S : List (List Char)) :
    ∀ sents chunks current clen r,
      chunkLoop m sents chunks current clen = some r →
      (∀ s ∈ sents, s ∈ S) →
      (∀ s ∈ current, s ∈ S) →
      clen = 13 * ((current.map pyWords).flatten).length →
      (clen ≤ 10 * m ∨ ∃ s, current = [s]) →
      (∀ c ∈ chunks, 13 * (pyWords c).length ≤ 10 * m ∨
        (c ∈ S ∧ 10 * m < 13 * (pyWords c).length)) →
      ∀ c ∈ r, 13 * (pyWords c).length ≤ 10 * m ∨
        (c ∈ S ∧ 10 * m < 13 * (pyWords c).length) := by
  intro sents
  induction sents with
  | nil =>
    intro chunks current clen r hr _ hcur hclen hdisj hchunks
    simp only [chunkLoop] at hr
    split at hr
    · cases hr; exact hchunks
    · cases hr
      intro c hc
      rcases List.mem_append.mp hc with hc | hc
      · exact hchunks c hc
      · rw [List.mem_singleton.mp hc]
        exact joinSp_chunk_ok m S current hcur (hclen ▸ hdisj)
  | cons s rest ih =>
    intro chunks current clen r hr hsents hcur hclen hdisj hchunks
    simp only [chunkLoop] at hr
    split at hr
    · rename_i hover
      split at hr
      · split at hr
        · cases hr
        · rename_i hcure hk0
          have hk1 : 1 ≤ (10 * m) / 13 := Nat.one_le_iff_ne_zero.mpr hk0
          refine ih _ _ _ _ hr (fun s' hs' => hsents s' (by simp [hs']))
            hcur hclen hdisj ?_
          intro c hc
          rcases List.mem_append.mp hc with hc | hc
          · exact hchunks c hc
          · rcases List.mem_map.mp hc with ⟨g, hg, rfl⟩
            left
            rw [pyWords_joinSp_words g s (fun w hw => groupsOf_mem_mem hg hw)]
            have hlen : g.length ≤ (10 * m) / 13 := groupsOf_length_le hk1 hg
            have hdm : (10 * m) / 13 * 13 ≤ 10 * m := Nat.div_mul_le_self _ _
            omega
      · refine ih _ _ _ _ hr (fun s' hs' => hsents s' (by simp [hs']))
          ?_ ?_ ?_ ?_
        · intro s' hs'
          rw [List.mem_singleton.mp hs']
          exact hsents s (by simp)
        · simp
        · exact Or.inr ⟨s, rfl⟩
        · intro c hc
          rcases List.mem_append.mp hc with hc | hc
          · exact hchunks c hc
          · rw [List.mem_singleton.mp hc]
            exact joinSp_chunk_ok m S current hcur (hclen ▸ hdisj)
    · rename_i hover
      refine ih _ _ _ _ hr (fun s' hs' => hsents s' (by simp [hs']))
        ?_ ?_ ?_ hchunks
      · intro s' hs'
        rcases List.mem_append.mp hs' with hs' | hs'
        · exact hcur s' hs'
        · rw [List.mem_singleton.mp hs']
          exact hsents s (by simp)
      · rw [hclen]
        simp [List.map_append, List.flatten_append, Nat.mul_add]
      · left; omega

theorem chunk_text_some_words (t : List Char) (m : Nat) (hm : 2 ≤ m) :
    ∃ cs, chunk_text t m = some cs ∧
      (cs.map pyWords).flatten = pyWords t := by
  have hk : (10 * m) / 13 ≠ 0 := by
    have h13 : 13 ≤ 10 * m := by omega
    have := Nat.one_le_div_iff (by omega : 0 < 13) |>.mpr h13
    omega
  obtain ⟨r, hr⟩ := chunkLoop_isSome m hk (sentSplit t) [] [] 0
  refine ⟨r, hr, ?_⟩
  have := chunkLoop_words m (sentSplit t) [] [] 0 r hr
  simpa [sentSplit_words t] using this

theorem chunk_text_words_of_some (t : List Char) (m : Nat)
    (cs : List (List Char)) (h : chunk_text t m = some cs) :
    (cs.map pyWords).flatten = pyWords t := by
  have := chunkLoop_words m (sentSplit t) [] [] 0 cs h
  simpa [sentSplit_words t] using this

theorem chunk_text_bound_of_some (t : List Char) (m : Nat)
    (cs : List (List Char)) (h : chunk_text t m = some cs) :
    ∀ c ∈ cs, 13 * (pyWords c).length ≤ 10 * m ∨
      (c ∈ sentSplit t ∧ 10 * m < 13 * (pyWords c).length) := by
  refine chunkLoop_bound m (sentSplit t) (sentSplit t) [] [] 0 cs h
    (fun s hs => hs) (by simp) (by simp) (Or.inl (by omega)) (by simp)

theorem chunk_text_ne_nil (t : List Char) (m : Nat) (cs : List (List Char))
    (h : chunk_text t m = some cs) (hw : pyWords t ≠ []) : cs ≠ [] := by
  intro hnil
  subst hnil
  exact hw ((chunk_text_words_of_some t m [] h).symm.trans rfl)

/-! ### Lemmas about `joinSp`, the fallback and the chunk loop of
`summarize` -/

theorem joinSp_ne_nil_left (h : List Char) (rest : List (List Char))
    (hh : h ≠ []) : joinSp (h :: rest) ≠ [] := by
  cases rest with
  | nil => simpa [joinSp] using hh
  | cons t r => simp [joinSp]

theorem extractive_fallback_ne_nil (t : List Char) (ht : t ≠ []) :
    extractive_fallback t 3 ≠ [] := by
  obtain ⟨s, rest, hsp, hs⟩ := sentSplit_head t ht
  rw [extractive_fallback, hsp, List.take_succ_cons]
  exact joinSp_ne_nil_left s _ hs

theorem summarizeChunks_error (call : ModelCall) (a b : Nat)
    (hfail : ∀ inp x y, ∃ e, call inp x y = .error e) (c : List Char)
    (cs : List (List Char)) :
    ∃ e, summarizeChunks call a b (c :: cs) = (.error e, [.model c a b]) := by
  obtain ⟨e, he⟩ := hfail c a b
  exact ⟨e, by simp [summarizeChunks, he]⟩

theorem summarizeChunks_ok_all (call : ModelCall) (a b : Nat)
    (hok : ∀ inp x y, ∃ r, call inp x y = .ok r) :
    ∀ cs : List (List Char), ∃ ss, summarizeChunks call a b cs =
      (.ok ss, cs.map (fun c => Event.model c a b)) := by
  intro cs
  induction cs with
  | nil => exact ⟨[], rfl⟩
  | cons c cs ih =>
    obtain ⟨r, hr⟩ := hok c a b
    obtain ⟨ss, hss⟩ := ih
    exact ⟨r :: ss, by simp [summarizeChunks, hr, hss]⟩

theorem summarizeChunks_ok_spec (call : ModelCall) (a b : Nat) :
    ∀ (cs : List (List Char)) ss evs,
      summarizeChunks call a b cs = (.ok ss, evs) →
      ss.length = cs.length ∧ ∀ s ∈ ss, ∃ c ∈ cs, call c a b = .ok s := by
  intro cs
  induction cs with
  | nil =>
    intro ss evs h
    simp only [summarizeChunks, Prod.mk.injEq] at h
    obtain ⟨h1, _⟩ := h
    cases h1
    simp
  | cons c cs ih =>
    intro ss evs h
    simp only [summarizeChunks] at h
    split at h
    · simp only [Prod.mk.injEq] at h
      cases h.1
    · rename_i s hs
      split at h
      · rename_i ss' evs' hrec
        simp only [Prod.mk.injEq] at h
        obtain ⟨h1, _⟩ := h
        cases h1
        obtain ⟨hlen, hmem⟩ := ih ss' evs' hrec
        refine ⟨by simp [hlen], ?_⟩
        intro x hx
        rcases List.mem_cons.mp hx with hx | hx
        · exact ⟨c, by simp, hx ▸ hs⟩
        · obtain ⟨c', hc', hcall⟩ := hmem x hx
          exact ⟨c', by simp [hc'], hcall⟩
      · simp only [Prod.mk.injEq] at h
        cases h.1

theorem merge_summaries_ne_nil (call : ModelCall) (l : List (List Char))
    (maxl minl : Nat) (hl : l ≠ []) (hmem : ∀ s ∈ l, s ≠ [])
    (hmaxl : 1 ≤ maxl)
    (hcall : ∀ x y r, call (joinSp l) x y = .ok r → r ≠ []) :
    (merge_summaries call l maxl minl).1 ≠ [] := by
  match l with
  | [] => exact absurd rfl hl
  | [s] => exact hmem s (by simp)
  | s :: t :: rest =>
    simp only [merge_summaries]
    split
    · exact joinSp_ne_nil_left s _ (hmem s (by simp)) ∘ fun h => h
    · rename_i hlong
      split
      · rename_i r hr
        exact hcall maxl minl r hr
      · have hw : pyWords (joinSp (s :: t :: rest)) ≠ [] := by
          intro hnil
          rw [hnil] at hlong
          simp at hlong
        obtain ⟨w, ws, hws⟩ := List.exists_cons_of_ne_nil hw
        have hwword := pyWords_mem (joinSp (s :: t :: rest)) w (by rw [hws]; simp)
        rw [hws]
        cases maxl with
        | zero => omega
        | succ n =>
          rw [List.take_succ_cons]
          exact joinSp_ne_nil_left w _ hwword.1

/-! ### Claim theorems -/

/-- C8: `merge_summaries` on the empty list returns the empty string, and on
a singleton `[s]` returns `s` unchanged; in both cases the recorded list of
model calls is empty, so no model call is made. -/
theorem C8_merge_identity :
    (∀ (call : ModelCall) (maxl minl : Nat),
      merge_summaries call [] maxl minl = ([], [])) ∧
    (∀ (call : ModelCall) (s : List Char) (maxl minl : Nat),
      merge_summaries call [s] maxl minl = (s, [])) :=
  ⟨fun _ _ _ => rfl, fun _ _ _ _ => rfl⟩

/-- C7: given two or more summaries whose space-joined concatenation exceeds
`max_length` words, a raising second-pass model call is not propagated:
`merge_summaries` (a total function — it never raises) returns the first
`max_length` words of the concatenation, joined by single spaces. -/
theorem C7_merge_fallback (call : ModelCall) (s t : List Char)
    (rest : List (List Char)) (maxl minl : Nat)
    (hlong : maxl < (pyWords (joinSp (s :: t :: rest))).length)
    (e : List Char)
    (hfail : call (joinSp (s :: t :: rest)) maxl minl = .error e) :
    merge_summaries call (s :: t :: rest) maxl minl =
      (joinSp ((pyWords (joinSp (s :: t :: rest))).take maxl),
        [.model (joinSp (s :: t :: rest)) maxl minl]) := by
  simp [merge_summaries, Nat.not_le.mpr hlong, hfail]

/-- C7 witness: two summaries of two words each, `max_length = 1`, failing
second pass. -/
theorem C7_merge_fallback_witness :
    merge_summaries (fun _ _ _ => .error "x".data)
      ["a b".data, "c d".data] 1 1 =
      (joinSp ((pyWords (joinSp ["a b".data, "c d".data])).take 1),
        [.model (joinSp ["a b".data, "c d".data]) 1 1]) :=
  C7_merge_fallback (fun _ _ _ => .error "x".data) "a b".data "c d".data []
    1 1 (by decide) "x".data rfl

/-- C9: `validate_export_inputs` returns a message naming the empty field
whenever the transcript or the summary is empty or whitespace-only after
trimming (transcript checked first), and `none` when both are non-empty;
including the three concrete instances of the claim. -/
theorem C9_validate_export :
    (∀ t s, validate_export_inputs t s = none ↔
      pyStrip t ≠ [] ∧ pyStrip s ≠ []) ∧
    (∀ t s, pyStrip t = [] → validate_export_inputs t s =
      some "Transcript is empty. Cannot export.".data) ∧
    (∀ t s, pyStrip t ≠ [] → pyStrip s = [] → validate_export_inputs t s =
      some "Summary is empty. Cannot export.".data) ∧
    validate_export_inputs "".data "x".data =
      some "Transcript is empty. Cannot export.".data ∧
    validate_export_inputs "x".data "".data =
      some "Summary is empty. Cannot export.".data ∧
    validate_export_inputs "x".data "y".data = none := by
  refine ⟨?_, ?_, ?_, by decide, by decide, by decide⟩
  · intro t s
    by_cases h1 : pyStrip t = []
    · simp [validate_export_inputs, h1]
    · by_cases h2 : pyStrip s = []
      · simp [validate_export_inputs, List.isEmpty_iff, h1, h2]
      · simp [validate_export_inputs, List.isEmpty_iff, h1, h2]
  · intro t s h
    simp [validate_export_inputs, h]
  · intro t s h1 h2
    simp [validate_export_inputs, List.isEmpty_iff, h1, h2]

/-- C9 witness: the transcript check fires on a whitespace-only transcript. -/
theorem C9_validate_export_witness :
    validate_export_inputs " ".data "x".data =
      some "Transcript is empty. Cannot export.".data :=
  C9_validate_export.2.1 " ".data "x".data (by decide)

/-- C10: for the default `max_tokens = 1024`, `chunk_text` maps the empty
input to the one-element list `[""]` (not to `[]`), and any whitespace-only
input to the one-element list containing that input unchanged. -/
theorem C10_chunk_empty :
    chunk_text "".data 1024 = some [[]] ∧
    ∀ t : List Char, (∀ c ∈ t, isPySpace c = true) →
      chunk_text t 1024 = some [t] := by
  refine ⟨by decide, ?_⟩
  intro t ht
  unfold chunk_text
  rw [sentSplit_all_space t ht]
  simp [chunkLoop, pyWords_eq_nil_of_all_space t ht, joinSp]

/-- C10 witness: a concrete whitespace-only input. -/
theorem C10_chunk_empty_witness :
    chunk_text "  ".data 1024 = some ["  ".data] :=
  C10_chunk_empty.2 "  ".data (by decide)

/-- C6: on input that is empty or whitespace-only after trimming, `summarize`
returns the empty summary with the non-`none` error `"Input text is empty"`
(which mentions "empty"), makes no Chunker or model call (empty call list),
and neither creates nor modifies the cached model handle. -/
theorem C6_empty_input {M : Type} (load : Except (List Char) M)
    (call : M → ModelCall) (cached : Option M) (text : List Char)
    (maxl minl : Nat) (h : pyStrip text = []) :
    summarize load call cached text maxl minl =
      (cached, ([], some "Input text is empty".data), []) ∧
    "empty".data <:+: "Input text is empty".data := by
  refine ⟨?_, ⟨"Input text is ".data, [], by decide⟩⟩
  simp [summarize, h]

/-- C6 witness: `summarize` on a whitespace-only input with an untouched
cache. -/
theorem C6_empty_input_witness :
    summarize (M := Unit) (.ok ()) (fun _ t _ _ => .ok t) none "   ".data
      150 50 = (none, ([], some "Input text is empty".data), []) ∧
    "empty".data <:+: "Input text is empty".data :=
  C6_empty_input (M := Unit) (.ok ()) (fun _ t _ _ => .ok t) none "   ".data
    150 50 (by decide)

/-- C1 counterexample: the claim fails as stated.  On the empty input,
`chunk_text` returns `[""]`, whose sole chunk is the empty string — so "no
returned chunk is empty" is violated; and for `max_tokens = 1` (allowed by
"max_tokens ≥ 1") the one-word input `"hello"` makes `chunk_text` raise a
`ValueError` (modelled as `none`) instead of returning chunks, because
`int(1 / 1.3) = 0` is passed to `range` as its step. -/
theorem C1_counterexample :
    chunk_text "".data 1024 = some [[]] ∧
    chunk_text "hello".data 1 = none := by
  exact ⟨by decide, by decide⟩

/-- C1 amended: for every input text and every `max_tokens ≥ 2`, `chunk_text`
returns a chunk list without raising, and concatenating the words of the
chunks, in order, reproduces exactly the words of the input; chunks are not
guaranteed non-empty (the empty input yields `[""]`), and for
`max_tokens = 1` the function can raise instead of returning. -/
theorem C1_chunk_words (t : List Char) (m : Nat) (hm : 2 ≤ m) :
    ∃ cs, chunk_text t m = some cs ∧ (cs.map pyWords).flatten = pyWords t :=
  chunk_text_some_words t m hm

/-- C1 witness: word preservation at a concrete input with `max_tokens = 2`,
which forces both a flush and a hard-split. -/
theorem C1_chunk_words_witness :
    ∃ cs, chunk_text "a. b c d".data 2 = some cs ∧
      (cs.map pyWords).flatten = pyWords "a. b c d".data :=
  C1_chunk_words "a. b c d".data 2 (by decide)

/-- C2 counterexample: the claim fails as stated.  With `max_tokens = 5` and
input `"a. b b b b b."`, the single sentence `"b b b b b."` has estimated
token count `5 × 1.3 = 6.5 > 5`, so per the claim it should be split
word-wise into `int(5 / 1.3) = 3`-word groups, each its own chunk; but
because it arrives while the current chunk `["a."]` is non-empty, the code
emits it whole as the second chunk — a chunk that is not a hard-split word
group (it has 5 words, more than any 3-word group) and whose estimated token
count exceeds `max_tokens`. -/
theorem C2_counterexample :
    chunk_text "a. b b b b b.".data 5 =
      some ["a.".data, "b b b b b.".data] ∧
    "b b b b b.".data ∈ sentSplit "a. b b b b b.".data ∧
    10 * 5 < 13 * (pyWords "b b b b b.".data).length ∧
    (10 * 5) / 13 = 3 ∧ (pyWords "b b b b b.".data).length = 5 := by
  exact ⟨by decide, by decide, by decide, by decide, by decide⟩

/-- C2 amended: every chunk returned by `chunk_text` either has estimated
token count within the budget (`13 × word_count ≤ 10 × max_tokens`, the
exact form of `word_count × 1.3 ≤ max_tokens`) — in particular every chunk
produced by the oversized-sentence hard-split does — or consists of exactly
one input sentence whose own estimated token count exceeds `max_tokens`;
the hard-split fires only when the oversized sentence arrives while the
current chunk is empty, and an oversized sentence that overflows a non-empty
current chunk becomes its own over-budget chunk. -/
theorem C2_chunk_bound (t : List Char) (m : Nat) (cs : List (List Char))
    (h : chunk_text t m = some cs) :
    ∀ c ∈ cs, 13 * (pyWords c).length ≤ 10 * m ∨
      (c ∈ sentSplit t ∧ 10 * m < 13 * (pyWords c).length) :=
  chunk_text_bound_of_some t m cs h

/-- C2 witness: the size bound at a concrete chunk of a two-chunk input. -/
theorem C2_chunk_bound_witness :
    13 * (pyWords "a a a a.".data).length ≤ 10 * 7 ∨
      ("a a a a.".data ∈ sentSplit "a a a a. b b b b.".data ∧
        10 * 7 < 13 * (pyWords "a a a a.".data).length) :=
  C2_chunk_bound "a a a a. b b b b.".data 7
    ["a a a a.".data, "b b b b.".data] (by decide) "a a a a.".data (by decide)

/-- C4: if the model raises on every invocation then, for every input text
that is non-empty and not whitespace-only after trimming, `summarize`
returns the first 3 sentences of the original text (split with the same
punctuation-boundary regex as the Chunker) joined by single spaces, paired
with error `none`. -/
theorem C4_fallback {M : Type} (load : Except (List Char) M)
    (call : M → ModelCall) (cached : Option M) (text : List Char)
    (maxl minl : Nat) (hne : pyStrip text ≠ [])
    (hfail : ∀ (mdl : M) inp x y, ∃ e, call mdl inp x y = .error e) :
    (summarize load call cached text maxl minl).2.1 =
      (joinSp ((sentSplit text).take 3), none) := by
  have hempty : (pyStrip text).isEmpty = false := by
    cases hst : pyStrip text with
    | nil => exact absurd hst hne
    | cons a l => rfl
  obtain ⟨L, hL⟩ : ∃ L : Except (List Char) M,
      (match cached with
        | some mdl => Except.ok mdl
        | none => load : Except (List Char) M) = L := ⟨_, rfl⟩
  simp only [summarize, hempty, Bool.false_eq_true, if_false, hL]
  cases L with
  | error e => rfl
  | ok mdl =>
    simp only []
    split
    · rename_i hbig
      rcases hct : chunk_text text 1024 with _ | cs
      · simp [hct, extractive_fallback]
      · have hwne : pyWords text ≠ [] := by
          intro h
          rw [h] at hbig
          simp at hbig
        have hcs := chunk_text_ne_nil text 1024 cs hct hwne
        rcases cs with _ | ⟨c, cs'⟩
        · exact absurd rfl hcs
        · obtain ⟨e, he⟩ := summarizeChunks_error (call mdl) maxl minl
            (fun inp x y => hfail mdl inp x y) c cs'
          simp [hct, he, extractive_fallback]
    · obtain ⟨e, he⟩ := hfail mdl text maxl minl
      simp [he, extractive_fallback]

/-- C4 witness: an always-raising model on a four-sentence input. -/
theorem C4_fallback_witness :
    (summarize (M := Unit) (.ok ()) (fun _ _ _ _ => .error "m".data) none
      "One. Two. Three. Four.".data 150 50).2.1 =
      (joinSp ((sentSplit "One. Two. Three. Four.".data).take 3), none) :=
  C4_fallback (M := Unit) (.ok ()) (fun _ _ _ _ => .error "m".data) none
    "One. Two. Three. Four.".data 150 50 (by decide)
    (fun _ _ _ _ => ⟨"m".data, rfl⟩)

/-- C3 counterexample: the claim fails as stated — a model call that
succeeds but returns the empty summary makes `summarize` return
`("", none)` on a valid input: neither side of the pair is populated. -/
theorem C3_counterexample :
    (summarize (M := Unit) (.ok ()) (fun _ _ _ _ => .ok []) none "hi.".data
      150 50).2.1 = ([], none) := by decide

/-- C3 amended: `summarize` is a total function (it never raises — every
exception from the model layer is caught and converted to the extractive
fallback), and, provided `max_length ≥ 1` and every successful model call
returns a non-empty summary, exactly one side of the returned pair is
populated: a non-empty summary with error `none`, or the empty summary with
a non-`none` error. -/
theorem C3_result_shape {M : Type} (load : Except (List Char) M)
    (call : M → ModelCall) (cached : Option M) (text : List Char)
    (maxl minl : Nat) (hmaxl : 1 ≤ maxl)
    (hok : ∀ (mdl : M) inp x y r, call mdl inp x y = .ok r → r ≠ []) :
    ((summarize load call cached text maxl minl).2.1.1 ≠ [] ∧
      (summarize load call cached text maxl minl).2.1.2 = none) ∨
    ((summarize load call cached text maxl minl).2.1.1 = [] ∧
      (summarize load call cached text maxl minl).2.1.2 ≠ none) := by
  by_cases hval : pyStrip text = []
  · right
    simp [summarize, hval]
  · have hempty : (pyStrip text).isEmpty = false := by
      cases hst : pyStrip text with
      | nil => exact absurd hst hval
      | cons a l => rfl
    have htext : text ≠ [] := fun h => hval (by rw [h]; rfl)
    obtain ⟨L, hL⟩ : ∃ L : Except (List Char) M,
        (match cached with
          | some mdl => Except.ok mdl
          | none => load : Except (List Char) M) = L := ⟨_, rfl⟩
    simp only [summarize, hempty, Bool.false_eq_true, if_false, hL]
    cases L with
    | error e =>
      left
      exact ⟨extractive_fallback_ne_nil text htext, rfl⟩
    | ok mdl =>
      simp only []
      split
      · rename_i hbig
        rcases hct : chunk_text text 1024 with _ | cs
        · left
          simp only [hct]
          exact ⟨extractive_fallback_ne_nil text htext, trivial⟩
        · rcases hsc : summarizeChunks (call mdl) maxl minl cs with ⟨res, evs⟩
          cases res with
          | error e =>
            left
            simp only [hct, hsc]
            exact ⟨extractive_fallback_ne_nil text htext, trivial⟩
          | ok ss =>
            left
            simp only [hct, hsc]
            refine ⟨?_, trivial⟩
            have hwne : pyWords text ≠ [] := by
              intro h
              rw [h] at hbig
              simp at hbig
            have hcsne := chunk_text_ne_nil text 1024 cs hct hwne
            obtain ⟨hlen, hmem⟩ :=
              summarizeChunks_ok_spec (call mdl) maxl minl cs ss evs hsc
            have hssne : ss ≠ [] := by
              intro h
              rw [h] at hlen
              exact hcsne (List.length_eq_zero.mp hlen.symm)
            refine merge_summaries_ne_nil (call mdl) ss maxl minl hssne
              ?_ hmaxl ?_
            · intro s hs
              obtain ⟨c, _, hcall⟩ := hmem s hs
              exact hok mdl c maxl minl s hcall
            · intro x y r hr
              exact hok mdl (joinSp ss) x y r hr
      · rcases hcall : call mdl text maxl minl with e | r
        · left
          simp only [hcall]
          exact ⟨extractive_fallback_ne_nil text htext, trivial⟩
        · left
          simp only [hcall]
          exact ⟨hok mdl text maxl minl r hcall, trivial⟩

/-- C3 witness: a model that prepends a character (so its successes are
non-empty) on a valid input. -/
theorem C3_result_shape_witness :
    ((summarize (M := Unit) (.ok ()) (fun _ t _ _ => .ok ('s' :: t)) none
      "hi.".data 150 50).2.1.1 ≠ [] ∧
      (summarize (M := Unit) (.ok ()) (fun _ t _ _ => .ok ('s' :: t)) none
        "hi.".data 150 50).2.1.2 = none) ∨
    ((summarize (M := Unit) (.ok ()) (fun _ t _ _ => .ok ('s' :: t)) none
      "hi.".data 150 50).2.1.1 = [] ∧
      (summarize (M := Unit) (.ok ()) (fun _ t _ _ => .ok ('s' :: t)) none
        "hi.".data 150 50).2.1.2 ≠ none) :=
  C3_result_shape (M := Unit) (.ok ()) (fun _ t _ _ => .ok ('s' :: t)) none
    "hi.".data 150 50 (by decide)
    (fun _ inp _ _ r hr => by
      injection hr with h
      rw [← h]
      simp)

/-- C5 counterexample: the claim fails as stated — `" "` is a non-empty
input text whose estimated token count is below the threshold, yet
`summarize` performs no model call at all (the input is rejected as empty
after trimming), so the "Direct path with one model call" part does not
hold for it. -/
theorem C5_counterexample :
    " ".data ≠ [] ∧
    13 * (pyWords " ".data).length ≤ 10 * 1024 ∧
    (summarize (M := Unit) (.ok ()) (fun _ t _ _ => .ok t) (some ()) " ".data
      150 50).2.2 = [] := by
  exact ⟨by decide, by decide, by decide⟩

/-- C5 amended: for every input text that is non-empty and not
whitespace-only after trimming (the original claim said only "non-empty",
but whitespace-only inputs are rejected before any model call), with the
model handle already cached: if the estimated token count
`13 × word_count ≤ 10 × 1024` then the recorded call list is exactly one
model call on the full text (in particular the Chunker is never invoked);
if it exceeds the threshold, the Chunker is invoked, and when every model
call succeeds the call list is the Chunker call followed by one model call
per chunk in order, followed by the calls of the merge pass over the chunk
summaries, whose result is returned with error `none`. -/
theorem C5_direct_vs_chunked {M : Type} (load : Except (List Char) M)
    (call : M → ModelCall) (mdl : M) (text : List Char) (maxl minl : Nat)
    (hne : pyStrip text ≠ []) :
    (13 * (pyWords text).length ≤ 10 * 1024 →
      (summarize load call (some mdl) text maxl minl).2.2 =
        [.model text maxl minl]) ∧
    (10 * 1024 < 13 * (pyWords text).length →
      ∃ cs, chunk_text text 1024 = some cs ∧
        ((∀ inp x y, ∃ r, call mdl inp x y = .ok r) →
          ∃ ss, summarizeChunks (call mdl) maxl minl cs =
              (.ok ss, cs.map (fun c => Event.model c maxl minl)) ∧
            (summarize load call (some mdl) text maxl minl).2 =
              (((merge_summaries (call mdl) ss maxl minl).1, none),
                .chunk text 1024 ::
                  cs.map (fun c => Event.model c maxl minl) ++
                  (merge_summaries (call mdl) ss maxl minl).2))) := by
  have hempty : (pyStrip text).isEmpty = false := by
    cases hst : pyStrip text with
    | nil => exact absurd hst hne
    | cons a l => rfl
  constructor
  · intro hsmall
    have hnotbig : ¬(10 * 1024 < 13 * (pyWords text).length) :=
      Nat.not_lt.mpr hsmall
    simp only [summarize, hempty, Bool.false_eq_true, if_false]
    rw [if_neg hnotbig]
    rcases hcall : call mdl text maxl minl with e | r <;> simp [hcall]
  · intro hbig
    obtain ⟨cs, hct, _⟩ := chunk_text_some_words text 1024 (by omega)
    refine ⟨cs, hct, ?_⟩
    intro hall
    obtain ⟨ss, hss⟩ := summarizeChunks_ok_all (call mdl) maxl minl hall cs
    refine ⟨ss, hss, ?_⟩
    simp only [summarize, hempty, Bool.false_eq_true, if_false]
    rw [if_pos hbig]
    simp [hct, hss]

/-- C5 witness: the direct path on a short input with a cached model. -/
theorem C5_direct_vs_chunked_witness :
    (summarize (M := Unit) (.ok ()) (fun _ t _ _ => .ok t) (some ())
      "hi.".data 150 50).2.2 = [.model "hi.".data 150 50] :=
  (C5_direct_vs_chunked (M := Unit) (.ok ()) (fun _ t _ _ => .ok t) ()
    "hi.".data 150 50 (by decide)).1 (by decide)

end SummApp
